import Mathlib

/-! aws-profile-switcher: profile catalog, filter, reload and default-profile promotion

A shallow embedding of `src/main.go`.  The INI document (`gopkg.in/ini.v1`) is an ordered
list of named sections, each an ordered list of keys; the list widget
(`bubbles/list`) is its items together with its paginator, from which the selected index is
computed.  Go strings are modelled by
`String`, sliced through their character lists; every literal the program slices against is
ASCII, so byte offsets and character offsets agree on them.
-/

namespace AwsProfileSwitcher

/-! ## The INI document -/

/-- One key of a section (`ini.Key`): its name and its value. -/
structure Key where
  name : String
  value : String
deriving DecidableEq, Repr

/-- One section (`ini.Section`): its name and its keys in key-list order. -/
structure IniSection where
  name : String
  keys : List Key
deriving DecidableEq, Repr

/-- The document (`ini.File`): its sections in section-list order. -/
structure File where
  sections : List IniSection
deriving DecidableEq, Repr

/-- Errors the program returns or receives. -/
inductive Error where
  | profileNotFound (chosen : String)
  | createDefaultFailed
  | nilSection
  | emptySectionName
  | emptyKeyName
  | ioError (msg : String)
deriving DecidableEq, Repr

/-- The name of the section that `ini.Load` always creates first. -/
def DefaultSection : String := "DEFAULT"

/-- The method `File.GetSection`: the section stored under `name` (the empty name stands for
`DEFAULT`), or nothing. -/
def File.GetSection (f : File) (name : String) : Option IniSection :=
  let name := if name = "" then DefaultSection else name
  f.sections.find? (fun s => decide (s.name = name))

/-- The method `File.HasSection`: whether `GetSection` finds the section. -/
def File.HasSection (f : File) (name : String) : Bool :=
  (f.GetSection name).isSome

/-- The method `File.NewSection`: an empty name is an error; an existing section is returned as it
is; otherwise an empty section is appended.  The returned pointer is the section's name. -/
def File.NewSection (f : File) (name : String) : Except Error (File × String) :=
  if name = "" then .error .emptySectionName
  else if f.sections.any (fun s => decide (s.name = name)) then .ok (f, name)
  else .ok (⟨f.sections ++ [⟨name, []⟩]⟩, name)

/-- The method `File.Section` ("Section assumes named section exists and returns a
zero-value when not"): the named section, created empty at the end of the document when
it does not exist.  The pointer is `none` (nil) only when creation fails, which needs an
empty name. -/
def File.Section (f : File) (name : String) : File × Option String :=
  match f.GetSection name with
  | some s => (f, some s.name)
  | none =>
    let name := if name = "" then DefaultSection else name
    match f.NewSection name with
    | .ok (f1, p) => (f1, some p)
    | .error _ => (f, none)

/-- Apply `g` to the first section of the list named `name`. -/
def modifyFirst : List IniSection → String → (IniSection → IniSection) → List IniSection
  | [], _, _ => []
  | s :: rest, n, g => if s.name = n then g s :: rest else s :: modifyFirst rest n g

/-- Mutation through a section pointer. -/
def File.modify (f : File) (ptr : String) (g : IniSection → IniSection) : File :=
  ⟨modifyFirst f.sections ptr g⟩

/-- Reading through a section pointer: `Section.Keys`. -/
def File.Keys (f : File) (ptr : String) : List Key :=
  match f.sections.find? (fun s => decide (s.name = ptr)) with
  | some s => s.keys
  | none => []

/-- Remove the first key named `name` from a key list. -/
def deleteKey : List Key → String → List Key
  | [], _ => []
  | k :: rest, n => if k.name = n then rest else k :: deleteKey rest n

/-- The method `Section.DeleteKey`: drop the key of that name, if any. -/
def IniSection.DeleteKey (s : IniSection) (name : String) : IniSection :=
  { s with keys := deleteKey s.keys name }

/-- Overwrite the value of the first key named `name`. -/
def setValue : List Key → String → String → List Key
  | [], _, _ => []
  | k :: rest, n, v => if k.name = n then ⟨k.name, v⟩ :: rest else k :: setValue rest n v

/-- The method `Section.NewKey` on the key list: an empty name is an error; an existing key gets the
new value; otherwise the key is appended. -/
def newKey (ks : List Key) (name val : String) : Except Error (List Key) :=
  if name = "" then .error .emptyKeyName
  else if ks.any (fun k => decide (k.name = name)) then .ok (setValue ks name val)
  else .ok (ks ++ [⟨name, val⟩])

/-- The method `Section.NewKey` through a section pointer. -/
def File.NewKey (f : File) (ptr : String) (name val : String) : Except Error File :=
  match newKey (f.Keys ptr) name val with
  | .ok ks => .ok (f.modify ptr (fun s => { s with keys := ks }))
  | .error e => .error e

/-- The loop `for _, key := range defaultSection.Keys() { defaultSection.DeleteKey(key.Name()) }`. -/
def deleteLoop (f : File) (ptr : String) (snapshot : List Key) : File :=
  snapshot.foldl (fun acc k => acc.modify ptr (fun s => s.DeleteKey k.name)) f

/-- The loop over the chosen section's keys; it returns at the first `NewKey` error, leaving
the document as mutated so far. -/
def copyLoop (f : File) (ptr : String) : List Key → File × Option Error
  | [] => (f, none)
  | k :: rest =>
    match f.NewKey ptr k.name k.value with
    | .error e => (f, some e)
    | .ok f1 => copyLoop f1 ptr rest

/-- The function `setDefaultProfile(cfg, chosen, configPath)`.  The document is mutated in place, so the
mutated document is returned next to the error.  `save1` and `save2` are the outcomes of
the two `cfg.SaveTo(configPath)` calls: the first is only printed, the second is returned.
Lines written to standard output and the pause between the two saves are left out. -/
def setDefaultProfile (cfg : File) (chosen : String) (_save1 save2 : Option Error) :
    File × Option Error :=
  match cfg.Section ("profile " ++ chosen) with
  | (cfg, none) => (cfg, some (.profileNotFound chosen))
  | (cfg, some chosenSection) =>
    let step : Except Error (File × String) :=
      if !cfg.HasSection "default" then
        cfg.NewSection "default"
      else
        match cfg.Section "default" with
        | (cfg1, some p) => .ok (cfg1, p)
        | (_, none) => .error .nilSection
    match step with
    | .error e => (cfg, some e)
    | .ok (cfg, defaultSection) =>
      let cfg := deleteLoop cfg defaultSection (cfg.Keys defaultSection)
      match copyLoop cfg defaultSection (cfg.Keys chosenSection) with
      | (cfg, some e) => (cfg, some e)
      | (cfg, none) => (cfg, save2)

/-! ## The profile catalog -/

/-- The list item of the program: a profile name. -/
structure profileItem where
  name : String
deriving DecidableEq, Repr

def warningIcon : String := "🚧"

/-- The one warning text `loadProfiles` emits. -/
def warningMessage : String :=
  warningIcon ++ " (warn) Found sections with missing \x27profile\x27 or \x27sso-session\x27 prefix!\n\nRead more:\n"
    ++ "https://docs.aws.amazon.com/cli/latest/userguide/cli-configure-files.html"

/-- The Go test `len(name) > n && name[:n] == pre`. -/
def prefixedLonger (name : String) (n : Nat) (pre : String) : Bool :=
  decide (name.length > n) && decide (name.data.take n = pre.data)

/-- The Go slice `name[n:]`. -/
def sliceFrom (name : String) (n : Nat) : String :=
  String.mk (name.data.drop n)

/-- One iteration of the loop of `loadProfiles` over the pair `(profiles, w)`. -/
def loadStep (acc : List profileItem × List String) (sec : IniSection) :
    List profileItem × List String :=
  let name := sec.name
  if name = "DEFAULT" ∨ name = "default" then
    acc
  else if prefixedLonger name 8 "profile " then
    (acc.1 ++ [⟨sliceFrom name 8⟩], acc.2)
  else if !(prefixedLonger name 12 "sso-session ") then
    (acc.1, acc.2 ++ [warningMessage])
  else
    acc

/-- The function `loadProfiles(cfg)`: the profiles and the warnings. -/
def loadProfiles (cfg : File) : List profileItem × List String :=
  cfg.sections.foldl loadStep ([], [])

/-! ## The session -/

/-- The list widget (`list.Model`) with its paginator, reduced to what decides the items
and the selected index: the items, the page size `perPage`, the current `page`, the number
of pages `totalPages` and the `cursor` within the page.  `rows` is the number of rows left
for items, `availHeight / (delegate.Height() + delegate.Spacing())`, as a function of the
current number of pages (the pagination line takes more room once there are two pages); it
depends only on the widget height and styles, which the program never changes.
Go integer division and remainder truncate: `Int.tdiv`, `Int.tmod`. -/
structure ListModel where
  items : List profileItem
  rows : Int → Int
  perPage : Int
  page : Int
  totalPages : Int
  cursor : Int

/-- The method `list.Model.Index`: `Paginator.Page*Paginator.PerPage + cursor`. -/
def ListModel.Index (l : ListModel) : Int :=
  l.page * l.perPage + l.cursor

/-- The method `list.Model.Select`: go to the page of the index and put the cursor on it.
The index `-1` set by `Select(-1)` is "none". -/
def ListModel.Select (l : ListModel) (index : Int) : ListModel :=
  { l with page := Int.tdiv index l.perPage, cursor := Int.tmod index l.perPage }

/-- The method `paginator.Model.SetTotalPages`: the number of pages for `items` items; a
count below one changes nothing. -/
def ListModel.SetTotalPages (l : ListModel) (items : Int) : ListModel :=
  if items < 1 then l
  else
    let n := Int.tdiv items l.perPage
    let n := if Int.tmod items l.perPage > 0 then n + 1 else n
    { l with totalPages := n }

/-- The method `list.Model.updatePagination`: recompute the page size and the number of
pages, restore the index, and keep the page in bounds. -/
def ListModel.updatePagination (l : ListModel) : ListModel :=
  let index := l.Index
  let l := { l with perPage := max 1 (l.rows l.totalPages) }
  let l := if (l.items.length : Int) < 1 then l.SetTotalPages 1
           else l.SetTotalPages l.items.length
  let l := { l with page := Int.tdiv index l.perPage, cursor := Int.tmod index l.perPage }
  if l.page ≥ l.totalPages - 1 then { l with page := max 0 (l.totalPages - 1) } else l

/-- The method `list.Model.SetItems` (filtering by the widget is disabled): replace the
items and update the pagination, which may move the index to an earlier page. -/
def ListModel.SetItems (l : ListModel) (i : List profileItem) : ListModel :=
  ({ l with items := i } : ListModel).updatePagination

/-- The method `list.Model.SelectedItem`: nil when the index is negative or past the items. -/
def ListModel.SelectedItem (l : ListModel) : Option profileItem :=
  let i := l.Index
  if i < 0 ∨ l.items.length = 0 ∨ (l.items.length : Int) ≤ i then none
  else l.items.get? i.toNat

/-- The program state `model`; `input` is the value of the text input. -/
structure model where
  config : File
  allProfiles : List profileItem
  list : ListModel
  input : String
  quitting : Bool
  filteredItems : List profileItem
  lastInput : String
  width : Int
  height : Int
  home : String
  configPath : String

/-- The library function `strings.Contains(s, substr)`: `substr` occurs in `s`. -/
def Contains (s substr : String) : Bool :=
  decide (substr.data <:+: s.data)

/-- The filter loop of `filterItems`: append every profile whose lowered name contains the
(already lowered) query. -/
def filterLoop (ToLower : String → String) (query : String) (all : List profileItem) :
    List profileItem :=
  all.foldl (fun filtered it =>
    if Contains (ToLower it.name) query then filtered ++ [it] else filtered) []

/-- The method `(m *model).filterItems(query)`.  `ToLower` is `strings.ToLower`, the library's Unicode
case mapping, taken as a parameter. -/
def filterItems (ToLower : String → String) (m : model) (query : String) : model :=
  if query = "" then
    let m := { m with filteredItems := m.allProfiles }
    { m with list := m.list.SetItems m.filteredItems }
  else
    let query := ToLower query
    let filtered := filterLoop ToLower query m.allProfiles
    let m := { m with filteredItems := filtered }
    let m := { m with list := m.list.SetItems m.filteredItems }
    if m.filteredItems.length = 0 then
      { m with list := m.list.Select (-1) }
    else
      let selected := m.list.Index
      if selected < 0 ∨ selected ≥ (m.filteredItems.length : Int) then
        { m with list := m.list.Select 0 }
      else
        m

/-- The method `(m *model).reloadConfig()`.  `load` is the outcome of `ini.Load(m.configPath)`; the
global `warnings` is threaded through. -/
def reloadConfig (m : model) (warnings : List String) (load : Except Error File) :
    model × List String × Option Error :=
  match load with
  | .error err => (m, warnings, some err)
  | .ok cfg =>
    let m := { m with config := cfg }
    let (profiles, warningsFound) := loadProfiles cfg
    let warnings := warningsFound
    let m := { m with allProfiles := profiles }
    let m := { m with filteredItems := profiles }
    let m := { m with list := m.list.SetItems profiles }
    let m := if profiles.length > 0 then { m with list := m.list.Select 0 } else m
    (m, warnings, none)

/-- The messages `Update` receives. -/
inductive Msg where
  | WindowSizeMsg (width height : Int)
  | KeyMsg (key : String)
  | errMsg (err : Error)
  | reloadMsg
deriving DecidableEq, Repr

/-- The commands `Update` returns. -/
inductive Cmd where
  | Quit
  | watchConfigFile (path : String)
  | inputCmd
  | listCmd
deriving DecidableEq, Repr

/-- What `Update` takes from outside the program: the library functions and the outcomes
of the file operations of this step. -/
structure Env where
  ToLower : String → String
  inputUpdate : Msg → String → String
  listUpdate : Msg → ListModel → ListModel
  load : Except Error File
  save1 : Option Error
  save2 : Option Error

/-- The method `(m model).Update(msg)`: the new model, the new global `warnings`, and the batched
commands (nil for `errMsg`). -/
def Update (env : Env) (m : model) (warnings : List String) (msg : Msg) :
    model × List String × List Cmd :=
  let tail (m : model) (warnings : List String) (cmds : List Cmd) :
      model × List String × List Cmd :=
    let oldValue := m.input
    let m := { m with input := env.inputUpdate msg m.input }
    let cmds := cmds ++ [Cmd.inputCmd]
    let newValue := m.input
    let m := if newValue ≠ oldValue then filterItems env.ToLower m newValue else m
    let m := { m with list := env.listUpdate msg m.list }
    let cmds := cmds ++ [Cmd.listCmd]
    (m, warnings, cmds)
  match msg with
  | .WindowSizeMsg w h =>
    tail { m with width := w, height := h } warnings []
  | .KeyMsg key =>
    if key = "ctrl+c" ∨ key = "esc" then
      ({ m with quitting := true }, warnings, [Cmd.Quit])
    else if key = "enter" then
      let m :=
        match m.list.SelectedItem with
        | some p => { m with config := (setDefaultProfile m.config p.name env.save1 env.save2).1 }
        | none => m
      ({ m with quitting := true }, warnings, [Cmd.Quit])
    else
      tail m warnings []
  | .errMsg _ => (m, warnings, [])
  | .reloadMsg =>
    let (m, warnings, _) := reloadConfig m warnings env.load
    tail m warnings [Cmd.watchConfigFile m.configPath]

/-- ASCII lowering, used where a concrete `strings.ToLower` is needed on ASCII input. -/
def asciiLower (s : String) : String :=
  String.mk (s.data.map Char.toLower)

/-- The example document: `[profile work] region=us-east-1` and
`[default] region=us-west-2, foo=bar`, after the `DEFAULT` section every load creates. -/
def exampleDoc : File :=
  ⟨[⟨"DEFAULT", []⟩,
    ⟨"profile work", [⟨"region", "us-east-1"⟩]⟩,
    ⟨"default", [⟨"region", "us-west-2"⟩, ⟨"foo", "bar"⟩]⟩]⟩

/-! ## Auxiliary definitions for the statements -/

/-- Keys of the first section named `n` in a section list. -/
def keysOf (l : List IniSection) (n : String) : List Key :=
  match l.find? (fun s => decide (s.name = n)) with
  | some s => s.keys
  | none => []

/-- Replace the keys of the first section named `n`. -/
def setKeys (l : List IniSection) (n : String) (ks : List Key) : List IniSection :=
  modifyFirst l n (fun s => { s with keys := ks })

/-- Some section of the list is named `n`. -/
def hasName (l : List IniSection) (n : String) : Prop :=
  ∃ s ∈ l, s.name = n

/-- The section list once the `default` section is located or created. -/
def withDefault (l : List IniSection) : List IniSection :=
  if l.any (fun s => decide (s.name = "default")) then l else l ++ [⟨"default", []⟩]

/-- A name is a prefix followed by at least one more character. -/
def startsWithMore (pre name : String) : Prop :=
  pre.data <+: name.data ∧ name ≠ pre

instance (pre name : String) : Decidable (startsWithMore pre name) := by
  unfold startsWithMore
  infer_instance

/-- The list widget showing the two profiles `a` and `b` on one page with the first one
selected; it has seven rows for items on a single page and six once there are two pages. -/
def twoRowList : ListModel :=
  { items := [⟨"a"⟩, ⟨"b"⟩]
    rows := fun pages => if pages < 2 then 7 else 6
    perPage := 7
    page := 0
    totalPages := 1
    cursor := 0 }

/-- A session that shows the two profiles `a` and `b` with the first one selected. -/
def startState : model :=
  { config := ⟨[⟨"DEFAULT", []⟩, ⟨"profile a", []⟩, ⟨"profile b", []⟩]⟩
    allProfiles := [⟨"a"⟩, ⟨"b"⟩]
    list := twoRowList
    input := ""
    quitting := false
    filteredItems := [⟨"a"⟩, ⟨"b"⟩]
    lastInput := ""
    width := 80
    height := 24
    home := "/home/u"
    configPath := "/home/u/.aws/config" }

/-- The two-profile session after `a` was typed into the text input and the list was
filtered by it. -/
def typedState : model :=
  filterItems asciiLower { startState with input := "a" } "a"

/-- An environment in which a reload message leaves the text input and the list widget as
they are, and the file loads as the given document. -/
def quietEnv (ToLower : String → String) (load : Except Error File) : Env :=
  { ToLower := ToLower
    inputUpdate := fun _ v => v
    listUpdate := fun _ l => l
    load := load
    save1 := none
    save2 := none }

/-! ## Lemmas on the document operations -/

theorem File_Keys_eq (f : File) (p : String) : f.Keys p = keysOf f.sections p := rfl

theorem keysOf_setKeys_same (l : List IniSection) (n : String) (ks : List Key)
    (h : hasName l n) : keysOf (setKeys l n ks) n = ks := by
  induction l with
  | nil => obtain ⟨s, hs, _⟩ := h; cases hs
  | cons a l ih =>
    by_cases ha : a.name = n
    · simp [setKeys, modifyFirst, keysOf, ha]
    · have hl : hasName l n := by
        obtain ⟨s, hs, hn⟩ := h
        rcases List.mem_cons.1 hs with rfl | hs
        · exact absurd hn ha
        · exact ⟨s, hs, hn⟩
      have := ih hl
      simp only [setKeys, modifyFirst, keysOf, ha, if_false, List.find?_cons, decide_False]
        at this ⊢
      exact this

theorem find_setKeys_other (l : List IniSection) (n n' : String) (ks : List Key)
    (h : n' ≠ n) :
    (setKeys l n ks).find? (fun s => decide (s.name = n')) =
      l.find? (fun s => decide (s.name = n')) := by
  induction l with
  | nil => rfl
  | cons a l ih =>
    by_cases ha : a.name = n
    · subst ha
      have ha' : ¬ a.name = n' := fun h' => h h'.symm
      simp [setKeys, modifyFirst, List.find?_cons, ha']
    · simp only [setKeys, modifyFirst, ha, if_false, List.find?_cons]
      by_cases ha' : a.name = n'
      · simp [ha']
      · simpa [ha'] using ih

theorem find_setKeys_same (l : List IniSection) (n : String) (ks : List Key) :
    (setKeys l n ks).find? (fun s => decide (s.name = n)) =
      (l.find? (fun s => decide (s.name = n))).map (fun s => { s with keys := ks }) := by
  induction l with
  | nil => rfl
  | cons a l ih =>
    by_cases ha : a.name = n
    · simp [setKeys, modifyFirst, ha]
    · simp only [setKeys, modifyFirst, ha, if_false, List.find?_cons, decide_False]
      exact ih

theorem keysOf_setKeys_other (l : List IniSection) (n n' : String) (ks : List Key)
    (h : n' ≠ n) : keysOf (setKeys l n ks) n' = keysOf l n' := by
  simp [keysOf, find_setKeys_other l n n' ks h]

theorem hasName_setKeys (l : List IniSection) (n n' : String) (ks : List Key)
    (h : hasName l n') : hasName (setKeys l n ks) n' := by
  induction l with
  | nil => obtain ⟨s, hs, _⟩ := h; cases hs
  | cons a l ih =>
    obtain ⟨s, hs, hn⟩ := h
    by_cases ha : a.name = n
    · rcases List.mem_cons.1 hs with rfl | hs
      · exact ⟨{ s with keys := ks }, by simp [setKeys, modifyFirst, ha], hn⟩
      · exact ⟨s, by simp [setKeys, modifyFirst, ha, hs], hn⟩
    · rcases List.mem_cons.1 hs with rfl | hs
      · exact ⟨s, by simp [setKeys, modifyFirst, ha], hn⟩
      · obtain ⟨t, ht, htn⟩ := ih ⟨s, hs, hn⟩
        refine ⟨t, ?_, htn⟩
        simp only [setKeys, modifyFirst, ha, if_false]
        exact List.mem_cons_of_mem _ ht

theorem setKeys_setKeys (l : List IniSection) (n : String) (ks ks' : List Key) :
    setKeys (setKeys l n ks) n ks' = setKeys l n ks' := by
  induction l with
  | nil => rfl
  | cons a l ih =>
    by_cases ha : a.name = n
    · simp [setKeys, modifyFirst, ha]
    · simp only [setKeys, modifyFirst, ha, if_false]
      exact congrArg _ ih

theorem setKeys_keysOf (l : List IniSection) (n : String) : setKeys l n (keysOf l n) = l := by
  induction l with
  | nil => rfl
  | cons a l ih =>
    by_cases ha : a.name = n
    · subst ha
      simp [setKeys, modifyFirst, keysOf]
    · simp only [setKeys, modifyFirst, keysOf, ha, if_false, List.find?_cons, decide_False]
        at ih ⊢
      exact congrArg _ ih

theorem modifyFirst_DeleteKey (l : List IniSection) (n k : String) :
    modifyFirst l n (fun s => s.DeleteKey k) = setKeys l n (deleteKey (keysOf l n) k) := by
  induction l with
  | nil => rfl
  | cons a l ih =>
    by_cases ha : a.name = n
    · simp [setKeys, modifyFirst, keysOf, ha, IniSection.DeleteKey]
    · simp only [setKeys, modifyFirst, keysOf, ha, if_false, List.find?_cons, decide_False]
        at ih ⊢
      exact congrArg _ ih

theorem hasName_of_keysOf_ne_nil (l : List IniSection) (n : String) (h : keysOf l n ≠ []) :
    hasName l n := by
  unfold keysOf at h
  cases hf : l.find? (fun s => decide (s.name = n)) with
  | none => simp [hf] at h
  | some s =>
    exact ⟨s, List.mem_of_find?_eq_some hf, by simpa using List.find?_some hf⟩

theorem deleteLoop_eq (p : String) (ks : List Key) (l : List IniSection)
    (h : keysOf l p = ks) : deleteLoop ⟨l⟩ p ks = ⟨setKeys l p []⟩ := by
  induction ks generalizing l with
  | nil =>
    show (⟨l⟩ : File) = ⟨setKeys l p []⟩
    rw [← h, setKeys_keysOf]
  | cons k ks ih =>
    have hn : hasName l p := hasName_of_keysOf_ne_nil l p (by simp [h])
    have hstep : modifyFirst l p (fun s => s.DeleteKey k.name) = setKeys l p ks := by
      rw [modifyFirst_DeleteKey, h]; simp [deleteKey]
    have := ih (setKeys l p ks) (keysOf_setKeys_same l p ks hn)
    simp only [deleteLoop, List.foldl_cons, File.modify, hstep] at this ⊢
    rw [this, setKeys_setKeys]

theorem newKey_fresh (acc : List Key) (k : Key) (hne : k.name ≠ "")
    (hfresh : ∀ a ∈ acc, a.name ≠ k.name) :
    newKey acc k.name k.value = .ok (acc ++ [k]) := by
  have hany : acc.any (fun a => decide (a.name = k.name)) = false := by
    rw [List.any_eq_false]
    intro a ha
    simpa using hfresh a ha
  simp [newKey, hne, hany]

theorem copyLoop_eq (p : String) (ks : List Key) (l : List IniSection) (acc : List Key)
    (hk : keysOf l p = acc) (hn : hasName l p)
    (hne : ∀ k ∈ ks, k.name ≠ "") (hnd : (ks.map Key.name).Nodup)
    (hdis : ∀ k ∈ ks, ∀ a ∈ acc, a.name ≠ k.name) :
    copyLoop ⟨l⟩ p ks = (⟨setKeys l p (acc ++ ks)⟩, none) := by
  induction ks generalizing l acc with
  | nil =>
    simp only [copyLoop, List.append_nil]
    rw [← hk, setKeys_keysOf]
  | cons k ks ih =>
    have hfresh : ∀ a ∈ acc, a.name ≠ k.name := hdis k (List.mem_cons_self _ _)
    have hnew := newKey_fresh acc k (hne k (List.mem_cons_self _ _)) hfresh
    have hstep : File.NewKey ⟨l⟩ p k.name k.value = .ok ⟨setKeys l p (acc ++ [k])⟩ := by
      simp only [File.NewKey, File_Keys_eq, hk, hnew]
      rfl
    rw [List.map_cons, List.nodup_cons] at hnd
    have hdis' : ∀ k' ∈ ks, ∀ a ∈ acc ++ [k], a.name ≠ k'.name := by
      intro k' hk' a ha
      rcases List.mem_append.1 ha with ha | ha
      · exact hdis k' (List.mem_cons_of_mem _ hk') a ha
      · rw [List.mem_singleton] at ha
        subst ha
        intro heq
        exact hnd.1 (heq ▸ List.mem_map_of_mem Key.name hk')
    have := ih (setKeys l p (acc ++ [k])) (acc ++ [k]) (keysOf_setKeys_same l p _ hn)
      (hasName_setKeys l p p _ hn) (fun k' hk' => hne k' (List.mem_cons_of_mem _ hk'))
      hnd.2 hdis'
    simp only [copyLoop, hstep, this, setKeys_setKeys, List.append_assoc, List.singleton_append]

theorem copyLoop_frame (p : String) (ks : List Key) (l : List IniSection) :
    ∃ ks', (copyLoop ⟨l⟩ p ks).1 = ⟨setKeys l p ks'⟩ := by
  induction ks generalizing l with
  | nil => exact ⟨keysOf l p, by simp [copyLoop, setKeys_keysOf]⟩
  | cons k ks ih =>
    cases hnew : newKey (keysOf l p) k.name k.value with
    | error e =>
      refine ⟨keysOf l p, ?_⟩
      simp [copyLoop, File.NewKey, File_Keys_eq, hnew, setKeys_keysOf]
    | ok ks1 =>
      obtain ⟨ks', h'⟩ := ih (setKeys l p ks1)
      refine ⟨ks', ?_⟩
      have hstep : File.NewKey ⟨l⟩ p k.name k.value = .ok ⟨setKeys l p ks1⟩ := by
        simp only [File.NewKey, File_Keys_eq, hnew]
        rfl
      simp only [copyLoop, hstep, h', setKeys_setKeys]

theorem profile_ne_empty (chosen : String) : "profile " ++ chosen ≠ "" := by
  intro h
  have := congrArg String.data h
  simp at this

theorem profile_ne_default (chosen : String) : "profile " ++ chosen ≠ "default" := by
  intro h
  have := congrArg String.data h
  simp at this

theorem hasName_iff_any (l : List IniSection) (n : String) :
    hasName l n ↔ l.any (fun s => decide (s.name = n)) = true := by
  simp [hasName, List.any_eq_true]

theorem find_isSome_iff_any (l : List IniSection) (n : String) :
    (l.find? (fun s => decide (s.name = n))).isSome = l.any (fun s => decide (s.name = n)) := by
  induction l with
  | nil => rfl
  | cons a l ih =>
    by_cases ha : a.name = n
    · simp [List.find?_cons, ha]
    · simp [List.find?_cons, ha, ih]

theorem hasName_withDefault (l : List IniSection) : hasName (withDefault l) "default" := by
  unfold withDefault
  split
  · rename_i h
    exact (hasName_iff_any l "default").2 h
  · exact ⟨⟨"default", []⟩, by simp, rfl⟩

theorem find_withDefault_other (l : List IniSection) (n : String) (h : n ≠ "default") :
    (withDefault l).find? (fun s => decide (s.name = n)) =
      l.find? (fun s => decide (s.name = n)) := by
  unfold withDefault
  split
  · rfl
  · have h' : ¬ "default" = n := fun e => h e.symm
    cases hf : l.find? (fun s => decide (s.name = n)) <;>
      simp [List.find?_append, hf, List.find?_cons, h']

/-- The step that locates or creates the `default` section always yields the pointer
`default` into `withDefault`. -/
theorem defaultStep_eq (cfg : File) :
    (if !cfg.HasSection "default" then cfg.NewSection "default"
      else
        match cfg.Section "default" with
        | (cfg1, some p) => Except.ok (cfg1, p)
        | (_, none) => Except.error Error.nilSection) =
      Except.ok (⟨withDefault cfg.sections⟩, "default") := by
  have hd : ("default" : String) ≠ "" := by decide
  have hHas : cfg.HasSection "default" =
      cfg.sections.any (fun s => decide (s.name = "default")) := by
    simp only [File.HasSection, File.GetSection, hd, if_false]
    exact find_isSome_iff_any _ _
  cases hany : cfg.sections.any (fun s => decide (s.name = "default")) with
  | false =>
    simp [hHas, hany, File.NewSection, withDefault]
  | true =>
    have hsome : (cfg.sections.find? (fun s => decide (s.name = "default"))).isSome = true := by
      rw [find_isSome_iff_any, hany]
    obtain ⟨d, hdf⟩ := Option.isSome_iff_exists.1 hsome
    have hname : d.name = "default" := by simpa using List.find?_some hdf
    simp [hHas, hany, File.Section, File.GetSection, hdf, hname, withDefault]

/-- The shape of `setDefaultProfile` when the chosen section exists: the `default` section is
located or created, emptied, and filled by the copy loop. -/
theorem setDefaultProfile_eq (cfg : File) (chosen : String) (save1 save2 : Option Error)
    (sec : IniSection) (hsec : cfg.GetSection ("profile " ++ chosen) = some sec) :
    setDefaultProfile cfg chosen save1 save2 =
      match copyLoop ⟨setKeys (withDefault cfg.sections) "default" []⟩ "default" sec.keys with
      | (c, some e) => (c, some e)
      | (c, none) => (c, save2) := by
  have hne := profile_ne_empty chosen
  have hnd := profile_ne_default chosen
  have hfind : cfg.sections.find? (fun s => decide (s.name = "profile " ++ chosen)) = some sec := by
    simpa [File.GetSection, hne] using hsec
  have hname : sec.name = "profile " ++ chosen := by simpa using List.find?_some hfind
  have hS : cfg.Section ("profile " ++ chosen) = (cfg, some ("profile " ++ chosen)) := by
    simp [File.Section, hsec, hname]
  have hdel : deleteLoop ⟨withDefault cfg.sections⟩ "default"
      (keysOf (withDefault cfg.sections) "default") =
      ⟨setKeys (withDefault cfg.sections) "default" []⟩ := deleteLoop_eq _ _ _ rfl
  have hkeys : keysOf (setKeys (withDefault cfg.sections) "default" []) ("profile " ++ chosen)
      = sec.keys := by
    rw [keysOf_setKeys_other _ _ _ _ hnd]
    simp [keysOf, find_withDefault_other _ _ hnd, hfind]
  unfold setDefaultProfile
  rw [hS]
  simp only [defaultStep_eq, File_Keys_eq, hdel, hkeys]

theorem filter_setKeys (l : List IniSection) (n : String) (ks : List Key) :
    (setKeys l n ks).filter (fun s => decide (s.name ≠ n)) =
      l.filter (fun s => decide (s.name ≠ n)) := by
  induction l with
  | nil => rfl
  | cons a l ih =>
    by_cases ha : a.name = n
    · subst ha
      simp [setKeys, modifyFirst]
    · simp only [setKeys, modifyFirst, ha, if_false, List.filter_cons]
      rw [show modifyFirst l n (fun s => { s with keys := ks }) = setKeys l n ks from rfl, ih]

theorem filter_withDefault (l : List IniSection) :
    (withDefault l).filter (fun s => decide (s.name ≠ "default")) =
      l.filter (fun s => decide (s.name ≠ "default")) := by
  unfold withDefault
  split
  · rfl
  · simp [List.filter_append]

theorem getElem?_setKeys (l : List IniSection) (n : String) (ks : List Key) (i : Nat)
    (s : IniSection) (hi : l.get? i = some s) (hs : s.name ≠ n) :
    (setKeys l n ks).get? i = some s := by
  induction l generalizing i with
  | nil => simp at hi
  | cons a l ih =>
    cases i with
    | zero =>
      simp only [List.get?_cons_zero, Option.some.injEq] at hi
      subst hi
      simp [setKeys, modifyFirst, hs]
    | succ i =>
      simp only [List.get?_cons_succ] at hi
      by_cases ha : a.name = n
      · simp only [setKeys, modifyFirst, ha, if_true, List.get?_cons_succ]
        exact hi
      · simp only [setKeys, modifyFirst, ha, if_false, List.get?_cons_succ]
        exact ih i hi

theorem getElem?_withDefault (l : List IniSection) (i : Nat) (s : IniSection)
    (hi : l.get? i = some s) : (withDefault l).get? i = some s := by
  unfold withDefault
  split
  · exact hi
  · have hlt : i < l.length := by
      rcases Nat.lt_or_ge i l.length with h | h
      · exact h
      · rw [List.get?_eq_none.2 h] at hi
        cases hi
    rw [List.get?_eq_getElem?, List.getElem?_append_left hlt, ← List.get?_eq_getElem?]
    exact hi

/-- The document after `setDefaultProfile`, when the chosen section exists, is the
located-or-created document with new keys in `default`. -/
theorem setDefaultProfile_frame (cfg : File) (chosen : String) (save1 save2 : Option Error)
    (sec : IniSection) (hsec : cfg.GetSection ("profile " ++ chosen) = some sec) :
    ∃ ks', (setDefaultProfile cfg chosen save1 save2).1 =
      ⟨setKeys (withDefault cfg.sections) "default" ks'⟩ := by
  rw [setDefaultProfile_eq cfg chosen save1 save2 sec hsec]
  obtain ⟨ks', h⟩ := copyLoop_frame "default" sec.keys
    (setKeys (withDefault cfg.sections) "default" [])
  refine ⟨ks', ?_⟩
  rw [setKeys_setKeys] at h
  rw [← h]
  cases hc : copyLoop ⟨setKeys (withDefault cfg.sections) "default" []⟩ "default" sec.keys with
  | mk c e => cases e <;> rfl

/-! ## Default-profile promotion -/

/-- C1: when the document has a section `profile <chosen>` (its keys named and pairwise
distinct, as the INI library keeps them), `setDefaultProfile` leaves the `default` section
holding exactly that section's keys and values in that section's order, whatever
`default` held before and whether or not it existed; the chosen section is unchanged and
the returned error is the outcome of the final save. -/
theorem setDefaultProfile_default_is_copy (cfg : File) (chosen : String)
    (save1 save2 : Option Error) (sec : IniSection)
    (hsec : cfg.GetSection ("profile " ++ chosen) = some sec)
    (hne : ∀ k ∈ sec.keys, k.name ≠ "")
    (hnd : (sec.keys.map Key.name).Nodup) :
    (setDefaultProfile cfg chosen save1 save2).1.GetSection "default"
        = some ⟨"default", sec.keys⟩ ∧
      (setDefaultProfile cfg chosen save1 save2).1.GetSection ("profile " ++ chosen)
        = some sec ∧
      (setDefaultProfile cfg chosen save1 save2).2 = save2 := by
  have hd : ("default" : String) ≠ "" := by decide
  have hpe := profile_ne_empty chosen
  have hpd := profile_ne_default chosen
  have hfind : cfg.sections.find? (fun s => decide (s.name = "profile " ++ chosen)) = some sec := by
    simpa [File.GetSection, hpe] using hsec
  have hwd := hasName_withDefault cfg.sections
  have hcopy := copyLoop_eq "default" sec.keys
    (setKeys (withDefault cfg.sections) "default" []) []
    (keysOf_setKeys_same _ _ _ hwd) (hasName_setKeys _ _ _ _ hwd) hne hnd
    (fun _ _ a ha => by cases ha)
  rw [setKeys_setKeys, List.nil_append] at hcopy
  rw [setDefaultProfile_eq cfg chosen save1 save2 sec hsec, hcopy]
  refine ⟨?_, ?_, rfl⟩
  · simp only [File.GetSection, hd, if_false, find_setKeys_same]
    have hsome : ((withDefault cfg.sections).find?
        (fun s => decide (s.name = "default"))).isSome = true := by
      rw [find_isSome_iff_any]
      exact (hasName_iff_any _ _).1 hwd
    obtain ⟨d, hdf⟩ := Option.isSome_iff_exists.1 hsome
    have hname : d.name = "default" := by simpa using List.find?_some hdf
    simp [hdf, hname]
  · simp only [File.GetSection, hpe, if_false]
    rw [find_setKeys_other _ _ _ _ hpd, find_withDefault_other _ _ hpd, hfind]

/-- Witness for C1: the document `[profile work] region=us-east-1`,
`[default] region=us-west-2, foo=bar`; promoting `work` leaves `default` exactly
`region=us-east-1`. -/
theorem setDefaultProfile_default_is_copy_witness :
    (setDefaultProfile exampleDoc "work" none none).1.GetSection "default"
        = some ⟨"default", [⟨"region", "us-east-1"⟩]⟩ ∧
      (setDefaultProfile exampleDoc "work" none none).1.GetSection ("profile " ++ "work")
        = some ⟨"profile work", [⟨"region", "us-east-1"⟩]⟩ ∧
      (setDefaultProfile exampleDoc "work" none none).2 = none :=
  setDefaultProfile_default_is_copy exampleDoc "work" none none
    ⟨"profile work", [⟨"region", "us-east-1"⟩]⟩ (by decide) (by decide) (by decide)

/-- C3: when the document has a section `profile <chosen>`, `setDefaultProfile` changes
only sections named `default`: the sections with any other name are the same, with the
same keys and values, in the same order, and each keeps its position in the document;
this holds on every return path. -/
theorem setDefaultProfile_only_default_changes (cfg : File) (chosen : String)
    (save1 save2 : Option Error) (sec : IniSection)
    (hsec : cfg.GetSection ("profile " ++ chosen) = some sec) :
    (setDefaultProfile cfg chosen save1 save2).1.sections.filter
        (fun s => decide (s.name ≠ "default"))
      = cfg.sections.filter (fun s => decide (s.name ≠ "default")) ∧
    ∀ (i : Nat) (s : IniSection), cfg.sections.get? i = some s → s.name ≠ "default" →
      (setDefaultProfile cfg chosen save1 save2).1.sections.get? i = some s := by
  obtain ⟨ks', h⟩ := setDefaultProfile_frame cfg chosen save1 save2 sec hsec
  rw [h]
  refine ⟨?_, ?_⟩
  · show (setKeys (withDefault cfg.sections) "default" ks').filter _ = _
    rw [filter_setKeys, filter_withDefault]
  · intro i s hi hs
    exact getElem?_setKeys _ _ _ i s (getElem?_withDefault _ i s hi) hs

/-- Witness for C3 on the example document. -/
theorem setDefaultProfile_only_default_changes_witness :
    (setDefaultProfile exampleDoc "work" none none).1.sections.filter
        (fun s => decide (s.name ≠ "default"))
      = exampleDoc.sections.filter (fun s => decide (s.name ≠ "default")) ∧
    ∀ (i : Nat) (s : IniSection), exampleDoc.sections.get? i = some s → s.name ≠ "default" →
      (setDefaultProfile exampleDoc "work" none none).1.sections.get? i = some s :=
  setDefaultProfile_only_default_changes exampleDoc "work" none none
    ⟨"profile work", [⟨"region", "us-east-1"⟩]⟩ (by decide)

/-- C2: on the example document, which has no section `profile missing`,
`setDefaultProfile(doc, "missing", path)` returns no error; it appends an empty section
`profile missing` and empties `default`. -/
theorem setDefaultProfile_missing_profile_mutates :
    setDefaultProfile exampleDoc "missing" none none =
      (⟨[⟨"DEFAULT", []⟩,
         ⟨"profile work", [⟨"region", "us-east-1"⟩]⟩,
         ⟨"default", []⟩,
         ⟨"profile missing", []⟩]⟩, none) ∧
    exampleDoc.GetSection "profile missing" = none := by
  decide

/-! ## The profile catalog -/

theorem prefixedLonger_iff_startsWithMore (name pre : String) :
    prefixedLonger name pre.length pre = true ↔ startsWithMore pre name := by
  simp only [prefixedLonger, startsWithMore, Bool.and_eq_true, decide_eq_true_eq]
  constructor
  · rintro ⟨hlen, htake⟩
    refine ⟨?_, ?_⟩
    · rw [← htake]
      exact List.take_prefix _ _
    · intro h
      rw [h] at hlen
      exact Nat.lt_irrefl _ hlen
  · rintro ⟨⟨t, ht⟩, hne⟩
    have hlen : name.length = pre.length + t.length := by
      show name.data.length = pre.data.length + t.length
      rw [← ht, List.length_append]
    have ht' : t ≠ [] := by
      intro h
      apply hne
      rw [h, List.append_nil] at ht
      exact (String.ext ht).symm
    refine ⟨?_, ?_⟩
    · have : 0 < t.length := List.length_pos.2 ht'
      omega
    · rw [← ht]
      exact List.take_left' rfl

theorem sliceFrom_append_eq (pre name : String) (h : pre.data <+: name.data) :
    name = pre ++ sliceFrom name pre.length := by
  obtain ⟨t, ht⟩ := h
  apply String.ext
  simp only [String.data_append, sliceFrom]
  rw [← ht]
  show pre.data ++ t = pre.data ++ List.drop pre.data.length (pre.data ++ t)
  rw [List.drop_left]

theorem loadStep_eq (acc : List profileItem × List String) (s : IniSection) :
    loadStep acc s =
      (acc.1 ++ (if startsWithMore "profile " s.name then [⟨sliceFrom s.name 8⟩] else []),
       acc.2 ++ (if s.name ≠ "DEFAULT" ∧ s.name ≠ "default" ∧
          ¬ startsWithMore "profile " s.name ∧ ¬ startsWithMore "sso-session " s.name
          then [warningMessage] else [])) := by
  have h8 := prefixedLonger_iff_startsWithMore s.name "profile "
  have h12 := prefixedLonger_iff_startsWithMore s.name "sso-session "
  rw [show "profile ".length = 8 from by decide] at h8
  rw [show "sso-session ".length = 12 from by decide] at h12
  unfold loadStep
  by_cases hD : s.name = "DEFAULT"
  · have : ¬ startsWithMore "profile " "DEFAULT" := by decide
    simp [hD, this]
  by_cases hd : s.name = "default"
  · have : ¬ startsWithMore "profile " "default" := by decide
    simp [hd, this]
  by_cases hp : startsWithMore "profile " s.name
  · simp [hD, hd, hp, h8.2 hp]
  · have hp' : prefixedLonger s.name 8 "profile " = false := by
      cases hb : prefixedLonger s.name 8 "profile "
      · rfl
      · exact absurd (h8.1 hb) hp
    by_cases hs : startsWithMore "sso-session " s.name
    · simp [hD, hd, hp, hp', hs, h12.2 hs]
    · have hs' : prefixedLonger s.name 12 "sso-session " = false := by
        cases hb : prefixedLonger s.name 12 "sso-session "
        · rfl
        · exact absurd (h12.1 hb) hs
      simp [hD, hd, hp, hp', hs, hs']

theorem foldl_loadStep (l : List IniSection) (acc : List profileItem × List String) :
    l.foldl loadStep acc =
      (acc.1 ++ (l.filter (fun s => decide (startsWithMore "profile " s.name))).map
          (fun s => ⟨sliceFrom s.name 8⟩),
       acc.2 ++ (l.filter (fun s => decide (s.name ≠ "DEFAULT" ∧ s.name ≠ "default" ∧
          ¬ startsWithMore "profile " s.name ∧ ¬ startsWithMore "sso-session " s.name))).map
          (fun _ => warningMessage)) := by
  induction l generalizing acc with
  | nil => simp
  | cons a l ih =>
    rw [List.foldl_cons, ih, loadStep_eq]
    dsimp only
    rw [List.append_assoc, List.append_assoc]
    congr 2
    · by_cases hp : startsWithMore "profile " a.name
      · have hp' := decide_eq_true hp
        rw [if_pos hp]
        simp only [List.filter_cons, hp', if_true, List.map_cons, List.singleton_append]
      · have hp' := decide_eq_false hp
        rw [if_neg hp]
        simp only [List.filter_cons, hp', List.nil_append]
        rfl
    · by_cases hw : (a.name ≠ "DEFAULT" ∧ a.name ≠ "default" ∧
          ¬ startsWithMore "profile " a.name ∧ ¬ startsWithMore "sso-session " a.name)
      · have hw' := decide_eq_true hw
        rw [if_pos hw]
        simp only [List.filter_cons, hw', if_true, List.map_cons, List.singleton_append]
      · have hw' := decide_eq_false hw
        rw [if_neg hw]
        simp only [List.filter_cons, hw', List.nil_append]
        rfl

/-- C4 as stated fails: the section named exactly `profile ` begins with the literal
prefix, yet `loadProfiles` returns no profile for it. -/
theorem loadProfiles_bare_profile_prefix_skipped :
    "profile ".data <+: (⟨"profile ", []⟩ : IniSection).name.data ∧
      (loadProfiles ⟨[⟨"DEFAULT", []⟩, ⟨"profile ", []⟩]⟩).1 = [] := by
  decide

/-- C4, amended: the profiles returned by `loadProfiles` are, in document order, one per
section whose name is the prefix `profile ` followed by at least one character, and
nothing else; each profile name is the section name with the prefix stripped. -/
theorem loadProfiles_profiles (D : File) :
    (loadProfiles D).1 =
        (D.sections.filter (fun s => decide (startsWithMore "profile " s.name))).map
          (fun s => ⟨sliceFrom s.name 8⟩) ∧
      ∀ s ∈ D.sections, startsWithMore "profile " s.name →
        s.name = "profile " ++ sliceFrom s.name 8 ∧ sliceFrom s.name 8 ≠ "" := by
  refine ⟨?_, ?_⟩
  · unfold loadProfiles
    rw [foldl_loadStep]
    simp
  · intro s _ hs
    have h := sliceFrom_append_eq "profile " s.name hs.1
    rw [show "profile ".length = 8 from by decide] at h
    refine ⟨h, ?_⟩
    intro he
    rw [he] at h
    exact hs.2 h

/-- C5 as stated fails: the section named exactly `sso-session ` begins with the literal
prefix, yet `loadProfiles` records a warning for it. -/
theorem loadProfiles_bare_sso_prefix_warns :
    "sso-session ".data <+: (⟨"sso-session ", []⟩ : IniSection).name.data ∧
      (loadProfiles ⟨[⟨"DEFAULT", []⟩, ⟨"sso-session ", []⟩]⟩).2 = [warningMessage] := by
  decide

/-- C5, amended: the number of warnings is the number of sections whose name is neither
`DEFAULT` nor `default`, nor `profile ` followed by at least one character, nor
`sso-session ` followed by at least one character; every warning is the same fixed text. -/
theorem loadProfiles_warnings (D : File) :
    (loadProfiles D).2.length =
        D.sections.countP (fun s => decide (s.name ≠ "DEFAULT" ∧ s.name ≠ "default" ∧
          ¬ startsWithMore "profile " s.name ∧ ¬ startsWithMore "sso-session " s.name)) ∧
      ∀ w ∈ (loadProfiles D).2, w = warningMessage := by
  unfold loadProfiles
  rw [foldl_loadStep]
  refine ⟨?_, ?_⟩
  · simp only [List.nil_append, List.length_map, List.countP_eq_length_filter]
  · intro w hw
    simp only [List.nil_append, List.mem_map] at hw
    obtain ⟨_, _, h⟩ := hw
    exact h.symm

/-- C6 as stated fails: a section named `Default` equals `default` up to letter case, yet
`loadProfiles` records a warning for it. -/
theorem loadProfiles_mixed_case_default_warns :
    asciiLower "Default" = "default" ∧
      loadProfiles ⟨[⟨"Default", []⟩]⟩ = ([], [warningMessage]) := by
  decide

/-- C6, amended: a section named exactly `default` or exactly `DEFAULT` contributes
nothing: the profiles and warnings are those of the document without that section. -/
theorem loadProfiles_default_section_ignored (before after : List IniSection)
    (s : IniSection) (h : s.name = "default" ∨ s.name = "DEFAULT") :
    loadProfiles ⟨before ++ s :: after⟩ = loadProfiles ⟨before ++ after⟩ := by
  have hstep : ∀ acc, loadStep acc s = acc := by
    intro acc
    unfold loadStep
    rcases h with h | h <;> simp [h]
  simp only [loadProfiles, List.foldl_append, List.foldl_cons, hstep]

/-- Witness for C6: a `default` section between a profile and a bare section. -/
theorem loadProfiles_default_section_ignored_witness :
    loadProfiles ⟨[⟨"profile a", []⟩] ++ ⟨"default", [⟨"region", "eu-west-1"⟩]⟩ :: [⟨"bad", []⟩]⟩
      = loadProfiles ⟨[⟨"profile a", []⟩] ++ [⟨"bad", []⟩]⟩ :=
  loadProfiles_default_section_ignored [⟨"profile a", []⟩] [⟨"bad", []⟩]
    ⟨"default", [⟨"region", "eu-west-1"⟩]⟩ (Or.inl rfl)

/-! ## Filtering, selection and reload -/

theorem filterLoop_acc (ToLower : String → String) (query : String)
    (all acc : List profileItem) :
    all.foldl (fun filtered it =>
        if Contains (ToLower it.name) query then filtered ++ [it] else filtered) acc =
      acc ++ all.filter (fun it => Contains (ToLower it.name) query) := by
  induction all generalizing acc with
  | nil => simp
  | cons a all ih =>
    rw [List.foldl_cons, ih]
    cases h : Contains (ToLower a.name) query <;> simp [h, List.filter_cons]

theorem filterLoop_eq_filter (ToLower : String → String) (query : String)
    (all : List profileItem) :
    filterLoop ToLower query all = all.filter (fun it => Contains (ToLower it.name) query) := by
  unfold filterLoop
  rw [filterLoop_acc, List.nil_append]

theorem filterItems_filteredItems (ToLower : String → String) (m : model) (q : String) :
    (filterItems ToLower m q).filteredItems =
      if q = "" then m.allProfiles else filterLoop ToLower (ToLower q) m.allProfiles := by
  unfold filterItems
  by_cases hq : q = ""
  · simp [hq]
  · simp only [hq, if_false]
    split
    · rfl
    · split <;> rfl

theorem filterItems_allProfiles (ToLower : String → String) (m : model) (q : String) :
    (filterItems ToLower m q).allProfiles = m.allProfiles := by
  unfold filterItems
  by_cases hq : q = ""
  · simp [hq]
  · simp only [hq, if_false]
    split
    · rfl
    · split <;> rfl

theorem ListModel.Index_Select (l : ListModel) (index : Int) :
    (l.Select index).Index = index := by
  simp only [ListModel.Index, ListModel.Select]
  exact Int.tdiv_add_tmod' index l.perPage

theorem ListModel.items_SetTotalPages (l : ListModel) (n : Int) :
    (l.SetTotalPages n).items = l.items := by
  unfold ListModel.SetTotalPages
  split <;> rfl

theorem ListModel.items_updatePagination (l : ListModel) :
    l.updatePagination.items = l.items := by
  unfold ListModel.updatePagination
  dsimp only
  split <;> split <;> simp only [ListModel.items_SetTotalPages]

theorem ListModel.items_SetItems (l : ListModel) (i : List profileItem) :
    (l.SetItems i).items = i := by
  unfold ListModel.SetItems
  rw [ListModel.items_updatePagination]

/-- After `filterItems` with a non-empty query the selection is valid: none (`-1`) on an
empty filtered list, otherwise an index into it: the index the widget holds after
`SetItems` when that is in range, and `0` when it is not. -/
theorem filterItems_selection_of_query (ToLower : String → String) (m : model) (q : String)
    (hq : q ≠ "") :
    let m1 := filterItems ToLower m q
    let l0 := m.list.SetItems (filterLoop ToLower (ToLower q) m.allProfiles)
    (m1.filteredItems = [] → m1.list.Index = -1) ∧
    (m1.filteredItems ≠ [] →
      0 ≤ m1.list.Index ∧ m1.list.Index < (m1.filteredItems.length : Int) ∧
      m1.list.Index =
        if 0 ≤ l0.Index ∧ l0.Index < (m1.filteredItems.length : Int)
        then l0.Index else 0) := by
  intro m1 l0
  have hf : m1.filteredItems = filterLoop ToLower (ToLower q) m.allProfiles := by
    rw [filterItems_filteredItems]; simp [hq]
  by_cases hlen : (filterLoop ToLower (ToLower q) m.allProfiles).length = 0
  · have hnil : filterLoop ToLower (ToLower q) m.allProfiles = [] := List.length_eq_zero.1 hlen
    have hl : m1.list = l0.Select (-1) := by
      simp only [m1, l0, filterItems, hq, if_false, hlen, if_true]
    have hidx : m1.list.Index = -1 := by rw [hl, ListModel.Index_Select]
    exact ⟨fun _ => hidx, fun hne => absurd (hf.trans hnil) hne⟩
  · by_cases hsel : l0.Index < 0 ∨
        l0.Index ≥ ((filterLoop ToLower (ToLower q) m.allProfiles).length : Int)
    · have hl : m1.list = l0.Select 0 := by
        simp only [l0] at hsel
        simp only [m1, l0, filterItems, hq, if_false, hlen, hsel, if_true]
      have hidx : m1.list.Index = 0 := by rw [hl, ListModel.Index_Select]
      refine ⟨fun hnil => absurd (by rw [← hf, hnil]; rfl) hlen, fun _ => ?_⟩
      rw [hidx, hf]
      have hpos : 0 < (filterLoop ToLower (ToLower q) m.allProfiles).length :=
        Nat.pos_of_ne_zero hlen
      refine ⟨le_refl _, by exact_mod_cast hpos, ?_⟩
      have hnot : ¬ (0 ≤ l0.Index ∧
          l0.Index < ((filterLoop ToLower (ToLower q) m.allProfiles).length : Int)) := by
        omega
      rw [if_neg hnot]
    · have hl : m1.list = l0 := by
        simp only [l0] at hsel
        simp only [m1, l0, filterItems, hq, if_false, hlen, hsel]
      refine ⟨fun hnil => absurd (by rw [← hf, hnil]; rfl) hlen, fun _ => ?_⟩
      rw [hl, hf]
      have hin : 0 ≤ l0.Index ∧
          l0.Index < ((filterLoop ToLower (ToLower q) m.allProfiles).length : Int) := by
        omega
      rw [if_pos hin]
      exact ⟨hin.1, hin.2, rfl⟩

/-- C7: after `filterItems(q)` the filtered list is `allProfiles` itself when `q` is empty,
and otherwise exactly the profiles whose lowered name contains the lowered `q` as a
substring, in their original order; it is always a subsequence of `allProfiles`, and
`allProfiles` is left unchanged. -/
theorem filterItems_filtered (ToLower : String → String) (m : model) (q : String) :
    (filterItems ToLower m q).filteredItems =
        (if q = "" then m.allProfiles
         else m.allProfiles.filter
           (fun p => decide ((ToLower q).data <:+: (ToLower p.name).data))) ∧
      (filterItems ToLower m q).filteredItems.Sublist m.allProfiles ∧
      (filterItems ToLower m q).list.items = (filterItems ToLower m q).filteredItems ∧
      (filterItems ToLower m q).allProfiles = m.allProfiles := by
  have h1 : (filterItems ToLower m q).filteredItems =
      (if q = "" then m.allProfiles
       else m.allProfiles.filter
         (fun p => decide ((ToLower q).data <:+: (ToLower p.name).data))) := by
    rw [filterItems_filteredItems, filterLoop_eq_filter]
    rfl
  refine ⟨h1, ?_, ?_, filterItems_allProfiles ToLower m q⟩
  · rw [h1]
    split
    · exact List.Sublist.refl _
    · exact List.filter_sublist _
  · unfold filterItems
    by_cases hq : q = ""
    · simp [hq, ListModel.items_SetItems]
    · simp only [hq, if_false]
      split
      · exact ListModel.items_SetItems _ _
      · split
        · exact ListModel.items_SetItems _ _
        · exact ListModel.items_SetItems _ _

/-- C8: the selection invariant breaks on the empty query and on a reload to an empty
catalog.  Typing `z` on the two-profile session empties the filtered list and sets the
selection to none (`-1`); clearing the query then restores both profiles but leaves the
selection at none, so nothing is selected on a non-empty list.  Reloading to a document
without profiles leaves the selection index at `0` on an empty list. -/
theorem filterItems_empty_query_keeps_none :
    (filterItems asciiLower startState "z").filteredItems = [] ∧
    (filterItems asciiLower startState "z").list.Index = -1 ∧
    (filterItems asciiLower (filterItems asciiLower startState "z") "").filteredItems
      = [⟨"a"⟩, ⟨"b"⟩] ∧
    (filterItems asciiLower (filterItems asciiLower startState "z") "").list.Index = -1 ∧
    (filterItems asciiLower (filterItems asciiLower startState "z") "").list.SelectedItem
      = none ∧
    (reloadConfig startState [] (.ok ⟨[⟨"DEFAULT", []⟩]⟩)).1.filteredItems = [] ∧
    (reloadConfig startState [] (.ok ⟨[⟨"DEFAULT", []⟩]⟩)).1.list.Index = 0 := by
  decide

/-- C9: a reload does not apply the current query.  With `a` typed into the two-profile
session the filtered list is `[a]`; a reload to the same two profiles, which leaves the
text input at `a`, puts both `a` and `b` into the filtered list and into the list widget,
although filtering the new catalog by `a` keeps only `a`. -/
theorem reload_shows_unfiltered_catalog :
    typedState.input = "a" ∧
    typedState.filteredItems = [⟨"a"⟩] ∧
    (Update (quietEnv asciiLower (.ok startState.config)) typedState [] .reloadMsg).1.input
      = "a" ∧
    (Update (quietEnv asciiLower (.ok startState.config)) typedState []
        .reloadMsg).1.filteredItems = [⟨"a"⟩, ⟨"b"⟩] ∧
    (Update (quietEnv asciiLower (.ok startState.config)) typedState []
        .reloadMsg).1.list.items = [⟨"a"⟩, ⟨"b"⟩] ∧
    (loadProfiles startState.config).1.filter
        (fun p => decide ((asciiLower "a").data <:+: (asciiLower p.name).data)) = [⟨"a"⟩] := by
  decide

/-- After a successful reload the held document is the loaded one, the catalog and the
warnings are those of `loadProfiles` on it (the previous warnings are dropped), and the
filtered list and the list widget hold the whole new catalog, whatever the text input;
handling the reload message keeps that when the message leaves the text input and the list
widget as they are. -/
theorem reloadConfig_replaces_catalog (m : model) (warnings : List String) (D : File)
    (ToLower : String → String) :
    (reloadConfig m warnings (.ok D)).1.config = D ∧
    (reloadConfig m warnings (.ok D)).1.allProfiles = (loadProfiles D).1 ∧
    (reloadConfig m warnings (.ok D)).2.1 = (loadProfiles D).2 ∧
    (reloadConfig m warnings (.ok D)).1.filteredItems = (loadProfiles D).1 ∧
    (reloadConfig m warnings (.ok D)).1.list.items = (loadProfiles D).1 ∧
    (reloadConfig m warnings (.ok D)).1.input = m.input ∧
    (reloadConfig m warnings (.ok D)).2.2 = none ∧
    (Update (quietEnv ToLower (.ok D)) m warnings .reloadMsg).1.filteredItems
      = (loadProfiles D).1 ∧
    (Update (quietEnv ToLower (.ok D)) m warnings .reloadMsg).2.1 = (loadProfiles D).2 := by
  have hr : ∀ P : model → Prop,
      (∀ l, P { m with config := D, allProfiles := (loadProfiles D).1,
                       filteredItems := (loadProfiles D).1, list := l }) →
      P (reloadConfig m warnings (.ok D)).1 := by
    intro P hP
    unfold reloadConfig
    dsimp only
    split <;> exact hP _
  have hitems : (reloadConfig m warnings (.ok D)).1.list.items = (loadProfiles D).1 := by
    unfold reloadConfig
    dsimp only
    split <;> exact ListModel.items_SetItems _ _
  refine ⟨hr (fun x => x.config = D) (fun _ => rfl),
    hr (fun x => x.allProfiles = _) (fun _ => rfl), rfl,
    hr (fun x => x.filteredItems = _) (fun _ => rfl), hitems,
    hr (fun x => x.input = _) (fun _ => rfl), rfl, ?_, rfl⟩
  simp only [Update, quietEnv, ne_eq, not_true_eq_false, if_false]
  exact hr (fun x => x.filteredItems = _) (fun _ => rfl)

/-- C10: when the load fails, `reloadConfig` returns the error and leaves the model (held
document, catalog, filtered list, list widget with its selection) and the warnings exactly
as they were; handling the reload message then still issues the watch command for the
config path first, does not change `quitting`, and keeps the held document, the catalog
and the warnings. -/
theorem reloadConfig_failure_retains_state (m : model) (warnings : List String) (err : Error)
    (ToLower : String → String) (inputUpdate : Msg → String → String)
    (listUpdate : Msg → ListModel → ListModel) (save1 save2 : Option Error) :
    reloadConfig m warnings (.error err) = (m, warnings, some err) ∧
    (Update ⟨ToLower, inputUpdate, listUpdate, .error err, save1, save2⟩ m warnings
        .reloadMsg).2.2.head? = some (Cmd.watchConfigFile m.configPath) ∧
    (Update ⟨ToLower, inputUpdate, listUpdate, .error err, save1, save2⟩ m warnings
        .reloadMsg).1.quitting = m.quitting ∧
    (Update ⟨ToLower, inputUpdate, listUpdate, .error err, save1, save2⟩ m warnings
        .reloadMsg).1.config = m.config ∧
    (Update ⟨ToLower, inputUpdate, listUpdate, .error err, save1, save2⟩ m warnings
        .reloadMsg).1.allProfiles = m.allProfiles ∧
    (Update ⟨ToLower, inputUpdate, listUpdate, .error err, save1, save2⟩ m warnings
        .reloadMsg).2.1 = warnings := by
  have hq : ∀ (m0 : model) (q : String), (filterItems ToLower m0 q).quitting = m0.quitting := by
    intro m0 q
    unfold filterItems
    by_cases hq : q = ""
    · simp [hq]
    · simp only [hq, if_false]
      split
      · rfl
      · split <;> rfl
  have hc : ∀ (m0 : model) (q : String), (filterItems ToLower m0 q).config = m0.config := by
    intro m0 q
    unfold filterItems
    by_cases hq : q = ""
    · simp [hq]
    · simp only [hq, if_false]
      split
      · rfl
      · split <;> rfl
  refine ⟨rfl, rfl, ?_, ?_, ?_, rfl⟩
  · simp only [Update, reloadConfig]
    split
    · rw [hq]
    · rfl
  · simp only [Update, reloadConfig]
    split
    · rw [hc]
    · rfl
  · simp only [Update, reloadConfig]
    split
    · rw [filterItems_allProfiles]
    · rfl

end AwsProfileSwitcher
